import Mathlib

/-!
Verification development for the painterly point-cloud renderer.

The Rust sources are embedded shallowly:
* `src/point_gen.rs` (surface sampler)  → `Vec3`, `Vec2`, `Point`, `TriData`,
  `foldUnitSquare`, `numPoints`, `samplePoint`, `genTriangle`, `gen_point_list`;
  `f32` arithmetic is modelled by exact real arithmetic.
* `src/camera.rs` (cached camera)       → `Camera` and its operations.
* `src/main.rs fixed_update` (sort loop, simulation loop) → `Mat4`, `sortPass`
  (total-key model over `ℚ`), `mergeSortE` (panicking-comparator model),
  `simTick`.
* `src/main.rs main` (consumer drain)   → `drainLatest`, `consumerStep`.
-/

noncomputable section

/-- Model of `cgmath::Vector3<f32>` with exact real coordinates. -/
@[ext]
structure Vec3 where
  x : ℝ
  y : ℝ
  z : ℝ

instance : Add Vec3 := ⟨fun u v => ⟨u.x + v.x, u.y + v.y, u.z + v.z⟩⟩
instance : Sub Vec3 := ⟨fun u v => ⟨u.x - v.x, u.y - v.y, u.z - v.z⟩⟩
instance : Neg Vec3 := ⟨fun v => ⟨-v.x, -v.y, -v.z⟩⟩
instance : SMul ℝ Vec3 := ⟨fun r v => ⟨r * v.x, r * v.y, r * v.z⟩⟩

@[simp] theorem Vec3.add_x (u v : Vec3) : (u + v).x = u.x + v.x := rfl
@[simp] theorem Vec3.add_y (u v : Vec3) : (u + v).y = u.y + v.y := rfl
@[simp] theorem Vec3.add_z (u v : Vec3) : (u + v).z = u.z + v.z := rfl
@[simp] theorem Vec3.sub_x (u v : Vec3) : (u - v).x = u.x - v.x := rfl
@[simp] theorem Vec3.sub_y (u v : Vec3) : (u - v).y = u.y - v.y := rfl
@[simp] theorem Vec3.sub_z (u v : Vec3) : (u - v).z = u.z - v.z := rfl
@[simp] theorem Vec3.neg_x (v : Vec3) : (-v).x = -v.x := rfl
@[simp] theorem Vec3.neg_y (v : Vec3) : (-v).y = -v.y := rfl
@[simp] theorem Vec3.neg_z (v : Vec3) : (-v).z = -v.z := rfl
@[simp] theorem Vec3.smul_x (r : ℝ) (v : Vec3) : (r • v).x = r * v.x := rfl
@[simp] theorem Vec3.smul_y (r : ℝ) (v : Vec3) : (r • v).y = r * v.y := rfl
@[simp] theorem Vec3.smul_z (r : ℝ) (v : Vec3) : (r • v).z = r * v.z := rfl

/-- `Vector3::cross`. -/
def Vec3.cross (u v : Vec3) : Vec3 :=
  ⟨u.y * v.z - u.z * v.y, u.z * v.x - u.x * v.z, u.x * v.y - u.y * v.x⟩

/-- `Vector3::dot`. -/
def Vec3.dot (u v : Vec3) : ℝ := u.x * v.x + u.y * v.y + u.z * v.z

/-- Squared magnitude (`magnitude2`). -/
def Vec3.normSq (v : Vec3) : ℝ := v.x ^ 2 + v.y ^ 2 + v.z ^ 2

/-- `InnerSpace::magnitude`: the Euclidean length. -/
def Vec3.norm (v : Vec3) : ℝ := Real.sqrt v.normSq

/-- `InnerSpace::normalize`: `self * (1 / magnitude)`. -/
def Vec3.normalize (v : Vec3) : Vec3 := (1 / v.norm) • v

/-- Model of `cgmath::Vector2<f32>`. -/
@[ext]
structure Vec2 where
  x : ℝ
  y : ℝ

instance : Add Vec2 := ⟨fun u v => ⟨u.x + v.x, u.y + v.y⟩⟩
instance : Sub Vec2 := ⟨fun u v => ⟨u.x - v.x, u.y - v.y⟩⟩
instance : SMul ℝ Vec2 := ⟨fun r v => ⟨r * v.x, r * v.y⟩⟩

@[simp] theorem Vec2.add_x2 (u v : Vec2) : (u + v).x = u.x + v.x := rfl
@[simp] theorem Vec2.add_y2 (u v : Vec2) : (u + v).y = u.y + v.y := rfl
@[simp] theorem Vec2.sub_x2 (u v : Vec2) : (u - v).x = u.x - v.x := rfl
@[simp] theorem Vec2.sub_y2 (u v : Vec2) : (u - v).y = u.y - v.y := rfl
@[simp] theorem Vec2.smul_x2 (r : ℝ) (v : Vec2) : (r • v).x = r * v.x := rfl
@[simp] theorem Vec2.smul_y2 (r : ℝ) (v : Vec2) : (r • v).y = r * v.y := rfl

/-- `point_gen::Point`.  `brush_index` is `(rand::random::<u32>() % num_brushes) as i32`,
so it is modelled as a natural number. -/
structure Point where
  position : Vec3
  normal : Vec3
  tangent : Vec3
  bitangent : Vec3
  uv : Vec2
  brush_index : ℕ

/-- The data of one triangle of the mesh: the three vertex positions, normals
and texture coordinates fetched from the parallel arrays. -/
structure TriData where
  a : Vec3
  b : Vec3
  c : Vec3
  an : Vec3
  bn : Vec3
  cn : Vec3
  auv : Vec2
  buv : Vec2
  cuv : Vec2

/-- `point_gen.rs` lines 78-81: `if r1 + r2 >= 1.0 { r1 = 1.0 - r1; r2 = 1.0 - r2; }`. -/
def foldUnitSquare (r1 r2 : ℝ) : ℝ × ℝ :=
  if r1 + r2 ≥ 1 then (1 - r1, 1 - r2) else (r1, r2)

/-- `point_gen.rs` lines 66-70: `area = |AB × AC| / 2`. -/
def triArea (t : TriData) : ℝ := ((t.b - t.a).cross (t.c - t.a)).norm / 2

/-- `point_gen.rs` lines 68-74: `num_points = floor(area*density) as usize`,
plus one when the random draw is below the fractional remainder.
`e` is `area * density`, `rand` the uniform draw in `[0,1)`.
The `as usize` cast of the floor saturates at `0`, hence `Int.toNat`. -/
def numPoints (e rand : ℝ) : ℕ :=
  let n : ℕ := (⌊e⌋).toNat
  if rand < e - (n : ℝ) then n + 1 else n

/-- `point_gen.rs` lines 56-64 and 75-103: generation of the `i`-th sample of a
triangle.  `rng j` is the `j`-th uniform `f32` draw for this triangle
(draw `0` is the fractional-remainder draw, draws `1+2i` and `2+2i` are `r1`
and `r2` of sample `i`); `brushRng i` is the `u32` draw for sample `i`. -/
def samplePoint (t : TriData) (numBrushes : ℕ) (rng : ℕ → ℝ) (brushRng : ℕ → ℕ)
    (i : ℕ) : Point :=
  let ab := t.b - t.a
  let ac := t.c - t.a
  let duvAB := t.buv - t.auv
  let duvAC := t.cuv - t.auv
  let r := 1 / (duvAB.x * duvAC.y - duvAB.y * duvAC.x)
  let tangent := r • (duvAC.y • ab - duvAB.y • ac)
  let bitangent := r • (duvAB.x • ac - duvAC.x • ab)
  let area := triArea t
  let rr := foldUnitSquare (rng (1 + 2 * i)) (rng (2 + 2 * i))
  let p := t.a + rr.1 • ab + rr.2 • ac
  let ap := p - t.a
  let bp := p - t.b
  let u := (ac.cross ap).norm / 2 / area
  let v := (ab.cross bp).norm / 2 / area
  let w := 1 - u - v
  { position := p
    normal := u • t.an + v • t.bn + w • t.cn
    tangent := tangent
    bitangent := bitangent
    uv := u • t.auv + v • t.buv + w • t.cuv
    brush_index := brushRng i % numBrushes }

/-- `point_gen.rs` lines 66-104: all samples generated for one triangle. -/
def genTriangle (t : TriData) (density : ℝ) (numBrushes : ℕ) (rng : ℕ → ℝ)
    (brushRng : ℕ → ℕ) : List Point :=
  (List.range (numPoints (triArea t * density) (rng 0))).map
    (samplePoint t numBrushes rng brushRng)

/-- The flat arrays of `tobj::Mesh` that `gen_point_list` reads. -/
structure MeshData where
  indices : List ℕ
  positions : List ℝ
  normals : List ℝ
  texcoords : List ℝ

/-- `mesh.indices.chunks(3)`: groups of three indices, a shorter trailing
group when the length is not a multiple of three. -/
def chunks3 : List ℕ → List (List ℕ)
  | i0 :: i1 :: i2 :: rest => [i0, i1, i2] :: chunks3 rest
  | [] => []
  | rest => [rest]

/-- Fetch `3`-slice `[i*3 .. i*3+3]` of a flat coordinate array as a vector. -/
def vec3At (l : List ℝ) (i : ℕ) : Vec3 :=
  ⟨l.getD (i * 3) 0, l.getD (i * 3 + 1) 0, l.getD (i * 3 + 2) 0⟩

/-- Fetch `2`-slice `[i*2 .. i*2+2]` of a flat coordinate array as a vector. -/
def vec2At (l : List ℝ) (i : ℕ) : Vec2 :=
  ⟨l.getD (i * 2) 0, l.getD (i * 2 + 1) 0⟩

/-- The triangle data fetched for one index group (`point_gen.rs` lines 35-54). -/
def triAt (m : MeshData) (g : List ℕ) : TriData :=
  { a := vec3At m.positions (g.getD 0 0)
    b := vec3At m.positions (g.getD 1 0)
    c := vec3At m.positions (g.getD 2 0)
    an := vec3At m.normals (g.getD 0 0)
    bn := vec3At m.normals (g.getD 1 0)
    cn := vec3At m.normals (g.getD 2 0)
    auv := vec2At m.texcoords (g.getD 0 0)
    buv := vec2At m.texcoords (g.getD 1 0)
    cuv := vec2At m.texcoords (g.getD 2 0) }

/-- `point_gen::gen_point_list`.  Index groups that are not exactly three
indices long are skipped with a warning (line 28-34).  `rng t` and
`brushRng t` are the random draws consumed for the `t`-th group. -/
def gen_point_list (m : MeshData) (density : ℝ) (numBrushes : ℕ)
    (rng : ℕ → ℕ → ℝ) (brushRng : ℕ → ℕ → ℕ) : List Point :=
  (chunks3 m.indices).enum.flatMap fun ti =>
    if ti.2.length = 3 then
      genTriangle (triAt m ti.2) density numBrushes (rng ti.1) (brushRng ti.1)
    else []

end

/-- Position of a generated sample, unfolded. -/
theorem samplePoint_position (t : TriData) (numBrushes : ℕ) (rng : ℕ → ℝ)
    (brushRng : ℕ → ℕ) (i : ℕ) :
    (samplePoint t numBrushes rng brushRng i).position =
      t.a + (foldUnitSquare (rng (1 + 2 * i)) (rng (2 + 2 * i))).1 • (t.b - t.a)
          + (foldUnitSquare (rng (1 + 2 * i)) (rng (2 + 2 * i))).2 • (t.c - t.a) := rfl

theorem foldUnitSquare_mem (r1 r2 : ℝ) (h1 : 0 ≤ r1) (h1' : r1 < 1)
    (h2 : 0 ≤ r2) (h2' : r2 < 1) :
    0 ≤ (foldUnitSquare r1 r2).1 ∧ (foldUnitSquare r1 r2).1 ≤ 1 ∧
    0 ≤ (foldUnitSquare r1 r2).2 ∧ (foldUnitSquare r1 r2).2 ≤ 1 ∧
    (foldUnitSquare r1 r2).1 + (foldUnitSquare r1 r2).2 ≤ 1 := by
  unfold foldUnitSquare
  split
  all_goals refine ⟨?_, ?_, ?_, ?_, ?_⟩
  all_goals simp only
  all_goals linarith

/-- Claim C4: after the fold step the two random values sum to at most one, and
every sampled position is a convex combination of the three triangle vertices:
its barycentric weights lie in `[0,1]` and sum to `1`. -/
theorem C4_point_containment (t : TriData) (density : ℝ) (numBrushes : ℕ)
    (rng : ℕ → ℝ) (brushRng : ℕ → ℕ) (hr : ∀ i, 0 ≤ rng i ∧ rng i < 1) :
    (∀ i j, (foldUnitSquare (rng i) (rng j)).1 + (foldUnitSquare (rng i) (rng j)).2 ≤ 1) ∧
    ∀ pt ∈ genTriangle t density numBrushes rng brushRng,
      ∃ wa wb wc : ℝ,
        0 ≤ wa ∧ wa ≤ 1 ∧ 0 ≤ wb ∧ wb ≤ 1 ∧ 0 ≤ wc ∧ wc ≤ 1 ∧
        wa + wb + wc = 1 ∧ pt.position = wa • t.a + wb • t.b + wc • t.c := by
  constructor
  · intro i j
    exact (foldUnitSquare_mem (rng i) (rng j) (hr i).1 (hr i).2 (hr j).1 (hr j).2).2.2.2.2
  · intro pt hpt
    unfold genTriangle at hpt
    obtain ⟨i, _, rfl⟩ := List.mem_map.mp hpt
    obtain ⟨hs1, hs1', hs2, hs2', hsum⟩ :=
      foldUnitSquare_mem (rng (1 + 2 * i)) (rng (2 + 2 * i))
        (hr (1 + 2 * i)).1 (hr (1 + 2 * i)).2 (hr (2 + 2 * i)).1 (hr (2 + 2 * i)).2
    set s1 := (foldUnitSquare (rng (1 + 2 * i)) (rng (2 + 2 * i))).1 with hs1def
    set s2 := (foldUnitSquare (rng (1 + 2 * i)) (rng (2 + 2 * i))).2 with hs2def
    refine ⟨1 - s1 - s2, s1, s2, by linarith, by linarith, hs1, by linarith,
      hs2, by linarith, by ring, ?_⟩
    rw [samplePoint_position]
    ext <;> simp <;> ring

/-- Claim C5: the number of points generated for a triangle is
`floor(area*density) + 1` exactly when the dedicated uniform draw is below the
fractional remainder of `area*density`, and `floor(area*density)` otherwise. -/
theorem C5_stochastic_rounding (t : TriData) (density : ℝ) (numBrushes : ℕ)
    (rng : ℕ → ℝ) (brushRng : ℕ → ℕ) (hd : 0 ≤ density) :
    (genTriangle t density numBrushes rng brushRng).length =
      if rng 0 < Int.fract (triArea t * density) then
        (⌊triArea t * density⌋).toNat + 1
      else (⌊triArea t * density⌋).toNat := by
  have harea : 0 ≤ triArea t := by
    unfold triArea Vec3.norm
    positivity
  have he : 0 ≤ triArea t * density := mul_nonneg harea hd
  have hcast : (((⌊triArea t * density⌋).toNat : ℕ) : ℝ) = ((⌊triArea t * density⌋ : ℤ) : ℝ) := by
    exact_mod_cast congrArg (fun k : ℤ => (k : ℝ))
      (Int.toNat_of_nonneg (Int.floor_nonneg.mpr he))
  unfold genTriangle numPoints
  rw [List.length_map, List.length_range]
  simp only [hcast, Int.self_sub_floor]

/-- Claim C8: sampling with density zero yields the empty point list for every
mesh and every sequence of random draws with values in `[0,1)` (only
nonnegativity of the per-triangle remainder draw is needed). -/
theorem C8_zero_density (m : MeshData) (numBrushes : ℕ) (rng : ℕ → ℕ → ℝ)
    (brushRng : ℕ → ℕ → ℕ) (h : ∀ t, 0 ≤ rng t 0) :
    gen_point_list m 0 numBrushes rng brushRng = [] := by
  unfold gen_point_list
  rw [List.flatMap_eq_nil_iff]
  intro ti _
  split
  · unfold genTriangle numPoints
    rw [mul_zero]
    simp [Int.floor_zero, not_lt.mpr (h ti.1)]
  · rfl

noncomputable section

/-- The failing input for claim C1: triangle `A=(0,0,0)`, `B=(1,0,0)`,
`C=(0,1,0)` with per-vertex normals `an=(1,0,0)`, `bn=(0,1,0)`, `cn=(0,0,1)`
and UVs `(0,0)`, `(1,0)`, `(0,1)`. -/
def triC1 : TriData :=
  ⟨⟨0, 0, 0⟩, ⟨1, 0, 0⟩, ⟨0, 1, 0⟩,
   ⟨1, 0, 0⟩, ⟨0, 1, 0⟩, ⟨0, 0, 1⟩,
   ⟨0, 0⟩, ⟨1, 0⟩, ⟨0, 1⟩⟩

end

theorem triC1_area : triArea triC1 = 1 / 2 := by
  unfold triArea triC1
  simp [Vec3.cross, Vec3.norm, Vec3.normSq]

theorem cross_zero_right (v : Vec3) : v.cross ⟨0, 0, 0⟩ = ⟨0, 0, 0⟩ := by
  simp [Vec3.cross]

theorem cross_neg_self (u v : Vec3) (h : u = -v) : v.cross u = ⟨0, 0, 0⟩ := by
  subst h
  simp [Vec3.cross]
  constructor
  · ring
  · constructor <;> ring

theorem norm_zero_vec : (Vec3.mk 0 0 0).norm = 0 := by
  simp [Vec3.norm, Vec3.normSq]

/-- When every uniform draw is `0`, the sample lands on vertex `A`, yet the
code stores vertex `C`'s normal and uv for it. -/
theorem samplePoint_zero (t : TriData) (nb : ℕ) (br : ℕ → ℕ) (i : ℕ) :
    (samplePoint t nb (fun _ => 0) br i).position = t.a ∧
    (samplePoint t nb (fun _ => 0) br i).normal = t.cn ∧
    (samplePoint t nb (fun _ => 0) br i).uv = t.cuv := by
  have hfold : foldUnitSquare 0 0 = ((0 : ℝ), (0 : ℝ)) := by
    norm_num [foldUnitSquare]
  have hp : t.a + (0 : ℝ) • (t.b - t.a) + (0 : ℝ) • (t.c - t.a) = t.a := by
    ext <;> simp
  have hsub : t.a - t.a = (⟨0, 0, 0⟩ : Vec3) := by
    ext <;> simp
  have hbp : t.a - t.b = -(t.b - t.a) := by
    ext <;> simp
  unfold samplePoint
  simp only [hfold]
  rw [hp, hsub, hbp, cross_zero_right, cross_neg_self (-(t.b - t.a)) (t.b - t.a) rfl,
    norm_zero_vec]
  norm_num
  constructor
  · ext <;> simp
  · ext <;> simp

/-- Claim C1: with density `2` and all random draws `0`, the sampler emits for
`triC1` exactly one sample, located at vertex `A`, and stores for it the
normal `cn = (0,0,1)` and uv `(0,1)` of vertex `C` — although the true
barycentric weights of the sample with respect to `(A,B,C)` are `(1,0,0)`
(the sample is `1•A + 0•B + 0•C`), so own-weight interpolation of the vertex
attributes yields normal `an = (1,0,0)` and uv `(0,0)`.  The code multiplies
each vertex attribute by another vertex's barycentric weight. -/
theorem C1_wrong_weight_pairing :
    ((genTriangle triC1 2 1 (fun _ => 0) (fun _ => 0)).map Point.position = [triC1.a]) ∧
    ((genTriangle triC1 2 1 (fun _ => 0) (fun _ => 0)).map Point.normal = [⟨0, 0, 1⟩]) ∧
    ((genTriangle triC1 2 1 (fun _ => 0) (fun _ => 0)).map Point.uv = [⟨0, 1⟩]) ∧
    (triC1.a = (1 : ℝ) • triC1.a + (0 : ℝ) • triC1.b + (0 : ℝ) • triC1.c) ∧
    ((1 : ℝ) • triC1.an + (0 : ℝ) • triC1.bn + (0 : ℝ) • triC1.cn = ⟨1, 0, 0⟩) ∧
    ((1 : ℝ) • triC1.auv + (0 : ℝ) • triC1.buv + (0 : ℝ) • triC1.cuv = ⟨0, 0⟩) ∧
    (Vec3.mk 0 0 1 ≠ Vec3.mk 1 0 0) ∧ (Vec2.mk 0 1 ≠ Vec2.mk 0 0) := by
  have hnum : numPoints (triArea triC1 * 2) 0 = 1 := by
    rw [triC1_area]
    norm_num [numPoints]
  have hgen : genTriangle triC1 2 1 (fun _ => 0) (fun _ => 0) =
      [samplePoint triC1 1 (fun _ => 0) (fun _ => 0) 0] := by
    unfold genTriangle
    rw [hnum]
    rfl
  have hsp := samplePoint_zero triC1 1 (fun _ => 0) 0
  refine ⟨?_, ?_, ?_, ?_, ?_, ?_, ?_, ?_⟩
  · rw [hgen]
    simp [hsp.1]
  · rw [hgen]
    simp only [List.map_cons, List.map_nil, hsp.2.1]
    rfl
  · rw [hgen]
    simp only [List.map_cons, List.map_nil, hsp.2.2]
    rfl
  · ext <;> simp [triC1]
  · ext <;> simp [triC1]
  · ext <;> simp [triC1]
  · intro h
    have hx := congrArg Vec3.x h
    norm_num at hx
  · intro h
    have hy := congrArg Vec2.y h
    norm_num at hy

/-- `main.rs` lines 379-382: `while let Ok(points) = rx.try_recv() { last_points = Some(points) }`.
`pending` is the queue content in FIFO order (oldest first); the loop
overwrites `last_points` with each drained message. -/
def drainLatest {α : Type} (pending : List α) : Option α :=
  pending.foldl (fun _ x => some x) none

/-- `main.rs` lines 378-389: if the drain produced a message, the local point
buffers are replaced by it, otherwise they are kept.  `α` stands for the
buffer-set type `Vec<Vec<Point>>`. -/
def consumerStep {α : Type} (pending : List α) (buffers : α) : α :=
  match drainLatest pending with
  | some p => p
  | none => buffers

theorem foldl_overwrite_eq_getLast? {α : Type} (l : List α) (init : Option α) :
    l.foldl (fun _ x => some x) init = (l.getLast?).or init := by
  induction l using List.reverseRecOn generalizing init with
  | nil => rfl
  | append_singleton l a _ =>
      rw [List.foldl_append, List.getLast?_concat]
      rfl

/-- Claim C9: the consumer drain keeps exactly the most recently sent pending
message; the local buffers become that message when at least one message was
pending, and stay unchanged otherwise. -/
theorem C9_coalesce_to_latest {α : Type} (pending : List α) (buffers : α) :
    drainLatest pending = pending.getLast? ∧
    consumerStep pending buffers = (pending.getLast?).getD buffers := by
  have hd : drainLatest pending = pending.getLast? := by
    unfold drainLatest
    rw [foldl_overwrite_eq_getLast?, Option.or_none]
  refine ⟨hd, ?_⟩
  unfold consumerStep
  rw [hd]
  cases pending.getLast? <;> rfl

/-- Model of `cgmath::Vector4`. -/
structure Vec4 (α : Type) where
  x : α
  y : α
  z : α
  w : α

/-- Model of `cgmath::Matrix4`: four columns, as in cgmath's column-major
layout. -/
structure Mat4 (α : Type) where
  c0 : Vec4 α
  c1 : Vec4 α
  c2 : Vec4 α
  c3 : Vec4 α

/-- `Matrix4 * Vector4`: linear combination of the columns. -/
def Mat4.mulVec {α : Type} [Mul α] [Add α] (m : Mat4 α) (v : Vec4 α) : Vec4 α :=
  ⟨m.c0.x * v.x + m.c1.x * v.y + m.c2.x * v.z + m.c3.x * v.w,
   m.c0.y * v.x + m.c1.y * v.y + m.c2.y * v.z + m.c3.y * v.w,
   m.c0.z * v.x + m.c1.z * v.y + m.c2.z * v.z + m.c3.z * v.w,
   m.c0.w * v.x + m.c1.w * v.y + m.c2.w * v.z + m.c3.w * v.w⟩

/-- `Matrix4 * Matrix4`, column by column. -/
def Mat4.mul {α : Type} [Mul α] [Add α] (m n : Mat4 α) : Mat4 α :=
  ⟨m.mulVec n.c0, m.mulVec n.c1, m.mulVec n.c2, m.mulVec n.c3⟩

/-- The data of `point_gen::Point` that the depth sort reads: the position.
The `f32` coordinates are modelled as exact rationals (no NaN — the NaN case
is modelled separately by `mergeSortE` below). -/
structure QPoint where
  px : ℚ
  py : ℚ
  pz : ℚ

/-- `main.rs` lines 569-573 and 577-581: the cached sort key
`perspective * view * model * vec4(position, 1.0)`, then `z / w`. -/
def depthKey (pm vm mm : Mat4 ℚ) (p : QPoint) : ℚ :=
  let q := ((pm.mul vm).mul mm).mulVec ⟨p.px, p.py, p.pz, 1⟩
  q.z / q.w

/-- `main.rs` lines 554-584, one buffer: `par_sort_by_cached_key` sorts
ascending in the key order.  `Ord(f32)::cmp` is
`partial_cmp(..).unwrap().reverse()`, i.e. the reverse of the numeric order,
so the `reverse_sort == false` branch sorts descending by `z/w`; the
`Reverse(..)` wrapper in the `reverse_sort == true` branch flips the order
again, giving ascending by `z/w`. -/
def sortPass (reverse : Bool) (pm vm mm : Mat4 ℚ) (pts : List QPoint) : List QPoint :=
  if reverse then
    pts.mergeSort fun p q => decide (depthKey pm vm mm p ≤ depthKey pm vm mm q)
  else
    pts.mergeSort fun p q => decide (depthKey pm vm mm q ≤ depthKey pm vm mm p)

/-- Claim C2: after one sort pass with a fixed snapshot, the projected depths
`z/w` of adjacent points are monotonically non-decreasing when
`reverse_sort = true` and non-increasing when `reverse_sort = false`. -/
theorem C2_sorted_depths (pm vm mm : Mat4 ℚ) (pts : List QPoint) :
    List.Chain' (fun p q => depthKey pm vm mm p ≤ depthKey pm vm mm q)
      (sortPass true pm vm mm pts) ∧
    List.Chain' (fun p q => depthKey pm vm mm q ≤ depthKey pm vm mm p)
      (sortPass false pm vm mm pts) := by
  constructor
  · have htrans : ∀ a b c : QPoint,
        decide (depthKey pm vm mm a ≤ depthKey pm vm mm b) = true →
        decide (depthKey pm vm mm b ≤ depthKey pm vm mm c) = true →
        decide (depthKey pm vm mm a ≤ depthKey pm vm mm c) = true := by
      intro a b c hab hbc
      simp only [decide_eq_true_eq] at *
      exact le_trans hab hbc
    have htot : ∀ a b : QPoint,
        (decide (depthKey pm vm mm a ≤ depthKey pm vm mm b) ||
          decide (depthKey pm vm mm b ≤ depthKey pm vm mm a)) = true := by
      intro a b
      simpa using le_total (depthKey pm vm mm a) (depthKey pm vm mm b)
    have h := List.sorted_mergeSort htrans htot pts
    unfold sortPass
    simp only [if_pos]
    exact (h.imp (fun hab => by simpa using hab)).chain'
  · have htrans : ∀ a b c : QPoint,
        decide (depthKey pm vm mm b ≤ depthKey pm vm mm a) = true →
        decide (depthKey pm vm mm c ≤ depthKey pm vm mm b) = true →
        decide (depthKey pm vm mm c ≤ depthKey pm vm mm a) = true := by
      intro a b c hab hbc
      simp only [decide_eq_true_eq] at *
      exact le_trans hbc hab
    have htot : ∀ a b : QPoint,
        (decide (depthKey pm vm mm b ≤ depthKey pm vm mm a) ||
          decide (depthKey pm vm mm a ≤ depthKey pm vm mm b)) = true := by
      intro a b
      simpa using (le_total (depthKey pm vm mm a) (depthKey pm vm mm b)).symm
    have h := List.sorted_mergeSort htrans htot pts
    unfold sortPass
    simp only [Bool.false_eq_true, if_neg]
    exact (h.imp (fun hab => by simpa using hab)).chain'

/-- Whether an `Except` computation completed without a panic. -/
def okE {β : Type} : Except Unit β → Bool
  | .ok _ => true
  | .error _ => false

/-- The depth-key comparator of `main.rs` lines 560-564 over possibly-NaN
`f32` keys: `key a` is the projected depth of `a`, with `none` modelling NaN.
`partial_cmp` returns `None` when either operand is NaN, and `.unwrap()` then
panics — modelled by `.error ()`.  The `reverse` flag selects the
`Reverse(..)`-wrapped (ascending) or plain `Ord` (descending) key order. -/
def leE {α : Type} (key : α → Option ℚ) (reverse : Bool) (a b : α) :
    Except Unit Bool :=
  match key a, key b with
  | some x, some y => .ok (if reverse then decide (x ≤ y) else decide (y ≤ x))
  | _, _ => .error ()

/-- Merge step of a comparison sort whose comparator may panic; the first
comparison that panics aborts the whole pass. -/
def mergeE {α : Type} (le : α → α → Except Unit Bool) :
    List α → List α → Except Unit (List α)
  | [], l2 => .ok l2
  | a :: l1, [] => .ok (a :: l1)
  | a :: l1, b :: l2 =>
    match le a b with
    | .error e => .error e
    | .ok true =>
      match mergeE le l1 (b :: l2) with
      | .error e => .error e
      | .ok rest => .ok (a :: rest)
    | .ok false =>
      match mergeE le (a :: l1) l2 with
      | .error e => .error e
      | .ok rest => .ok (b :: rest)
termination_by l1 l2 => l1.length + l2.length

/-- Comparison sort with a panicking comparator, modelling
`par_sort_by_cached_key`: lists of length at most one involve no comparison;
longer lists are split, sorted and merged, and a comparator panic anywhere
aborts the pass. -/
def mergeSortE {α : Type} (le : α → α → Except Unit Bool) :
    List α → Except Unit (List α)
  | [] => .ok []
  | [a] => .ok [a]
  | a :: b :: rest =>
    match mergeSortE le ((a :: b :: rest).take ((a :: b :: rest).length / 2)),
        mergeSortE le ((a :: b :: rest).drop ((a :: b :: rest).length / 2)) with
    | .ok s1, .ok s2 => mergeE le s1 s2
    | .error e, _ => .error e
    | _, .error e => .error e
termination_by l => l.length
decreasing_by
  · simp [List.length_take]
    omega
  · simp [List.length_drop]
    omega

/-- One sort pass of the Sort Loop over a buffer whose projected `f32` depths
may be NaN. -/
def sortPassE {α : Type} (reverse : Bool) (key : α → Option ℚ) (pts : List α) :
    Except Unit (List α) :=
  mergeSortE (leE key reverse) pts

theorem leE_ok_iff {α : Type} (key : α → Option ℚ) (reverse : Bool) (a b : α) :
    okE (leE key reverse a b) = true ↔ ((key a).isSome ∧ (key b).isSome) := by
  cases ha : key a <;> cases hb : key b <;> simp [leE, okE, ha, hb]

theorem leE_error_left {α : Type} (key : α → Option ℚ) (reverse : Bool) (a b : α)
    (ha : key a = none) : leE key reverse a b = .error () := by
  cases hb : key b <;> simp [leE, ha, hb]

theorem leE_error_right {α : Type} (key : α → Option ℚ) (reverse : Bool) (a b : α)
    (hb : key b = none) : leE key reverse a b = .error () := by
  cases ha : key a <;> simp [leE, ha, hb]

theorem mergeE_ok_all {α : Type} (le : α → α → Except Unit Bool) (good : α → Prop)
    (hle : ∀ a b, good a → good b → ∃ o, le a b = Except.ok o) :
    ∀ (n : ℕ) (l1 l2 : List α), l1.length + l2.length ≤ n →
      (∀ x ∈ l1, good x) → (∀ x ∈ l2, good x) →
      ∃ out, mergeE le l1 l2 = Except.ok out ∧ ∀ x ∈ out, good x := by
  intro n
  induction n with
  | zero =>
    intro l1 l2 hlen h1 h2
    match l1, l2 with
    | [], l2 => exact ⟨l2, by simp [mergeE], h2⟩
    | a :: l1, l2 => simp at hlen
  | succ n ih =>
    intro l1 l2 hlen h1 h2
    match l1, l2 with
    | [], l2 => exact ⟨l2, by simp [mergeE], h2⟩
    | a :: l1, [] => exact ⟨a :: l1, by simp [mergeE], h1⟩
    | a :: l1, b :: l2 =>
      obtain ⟨o, ho⟩ := hle a b (h1 a (List.mem_cons_self a l1)) (h2 b (List.mem_cons_self b l2))
      cases o with
      | true =>
        obtain ⟨out, hout, hgood⟩ := ih l1 (b :: l2) (by simp at hlen ⊢; omega)
          (fun x hx => h1 x (List.mem_cons_of_mem a hx)) h2
        refine ⟨a :: out, by simp [mergeE, ho, hout], ?_⟩
        intro x hx
        rcases List.mem_cons.mp hx with rfl | hx
        · exact h1 x (List.mem_cons_self x l1)
        · exact hgood x hx
      | false =>
        obtain ⟨out, hout, hgood⟩ := ih (a :: l1) l2 (by simp at hlen ⊢; omega) h1
          (fun x hx => h2 x (List.mem_cons_of_mem b hx))
        refine ⟨b :: out, by simp [mergeE, ho, hout], ?_⟩
        intro x hx
        rcases List.mem_cons.mp hx with rfl | hx
        · exact h2 x (List.mem_cons_self x l2)
        · exact hgood x hx

theorem mergeSortE_ok_length {α : Type} (le : α → α → Except Unit Bool) :
    ∀ (n : ℕ) (l out : List α), l.length ≤ n → mergeSortE le l = Except.ok out →
      1 ≤ l.length → 1 ≤ out.length := by
  intro n
  induction n with
  | zero =>
    intro l out hlen h h1
    omega
  | succ n ih =>
    intro l out hlen h h1
    match l with
    | [] => simp at h1
    | [a] =>
      simp [mergeSortE] at h
      subst h
      simp
    | a :: b :: rest =>
      rw [mergeSortE] at h
      cases hs1 : mergeSortE le ((a :: b :: rest).take ((a :: b :: rest).length / 2)) with
      | error e => rw [hs1] at h; simp at h
      | ok s1 =>
        cases hs2 : mergeSortE le ((a :: b :: rest).drop ((a :: b :: rest).length / 2)) with
        | error e => rw [hs1, hs2] at h; simp at h
        | ok s2 =>
          rw [hs1, hs2] at h
          simp only [List.length_cons] at hlen
          have hdl : ((a :: b :: rest).drop ((a :: b :: rest).length / 2)).length ≤ n := by
            simp [List.length_drop, List.length_cons]
            omega
          have hd1 : 1 ≤ ((a :: b :: rest).drop ((a :: b :: rest).length / 2)).length := by
            simp [List.length_drop, List.length_cons]
            omega
          have hs2len := ih _ s2 hdl hs2 hd1
          clear hs1 hs2 ih hlen
      -- out is the merge of s1 and s2 with s2 nonempty, so it is nonempty
          match s2, hs2len with
          | b2 :: s2, _ =>
            match s1 with
            | [] =>
              simp [mergeE] at h
              subst h
              simp
            | a1 :: s1 =>
              simp only [mergeE] at h
              cases hc : le a1 b2 with
              | error e => rw [hc] at h; simp at h
              | ok o =>
                rw [hc] at h
                cases o with
                | true =>
                  cases hm : mergeE le s1 (b2 :: s2) with
                  | error e => rw [hm] at h; simp at h
                  | ok rest2 => rw [hm] at h; simp at h; subst h; simp
                | false =>
                  cases hm : mergeE le (a1 :: s1) s2 with
                  | error e => rw [hm] at h; simp at h
                  | ok rest2 => rw [hm] at h; simp at h; subst h; simp

theorem mergeSortE_ok_all {α : Type} (le : α → α → Except Unit Bool) (good : α → Prop)
    (hle : ∀ a b, good a → good b → ∃ o, le a b = Except.ok o) :
    ∀ (n : ℕ) (l : List α), l.length ≤ n → (∀ x ∈ l, good x) →
      ∃ out, mergeSortE le l = Except.ok out ∧ ∀ x ∈ out, good x := by
  intro n
  induction n with
  | zero =>
    intro l hlen hgood
    match l with
    | [] => exact ⟨[], by simp [mergeSortE], by simp⟩
    | a :: l => simp at hlen
  | succ n ih =>
    intro l hlen hgood
    match l with
    | [] => exact ⟨[], by simp [mergeSortE], by simp⟩
    | [a] => exact ⟨[a], by simp [mergeSortE], by simpa using hgood⟩
    | a :: b :: rest =>
      simp only [List.length_cons] at hlen
      have htl : ((a :: b :: rest).take ((a :: b :: rest).length / 2)).length ≤ n := by
        simp [List.length_take, List.length_cons]
        omega
      have hdl : ((a :: b :: rest).drop ((a :: b :: rest).length / 2)).length ≤ n := by
        simp [List.length_drop, List.length_cons]
        omega
      obtain ⟨s1, hs1, hg1⟩ := ih ((a :: b :: rest).take ((a :: b :: rest).length / 2)) htl
        (fun x hx => hgood x (List.take_subset _ _ hx))
      obtain ⟨s2, hs2, hg2⟩ := ih ((a :: b :: rest).drop ((a :: b :: rest).length / 2)) hdl
        (fun x hx => hgood x (List.drop_subset _ _ hx))
      obtain ⟨out, hout, hg⟩ := mergeE_ok_all le good hle (s1.length + s2.length) s1 s2
        le_rfl hg1 hg2
      refine ⟨out, ?_, hg⟩
      rw [mergeSortE, hs1, hs2]
      exact hout

theorem mergeSortE_error {α : Type} (le : α → α → Except Unit Bool) (bad : α → Prop)
    (hbl : ∀ a b, bad a → le a b = Except.error ())
    (hbr : ∀ a b, bad b → le a b = Except.error ()) :
    ∀ (n : ℕ) (l : List α), l.length ≤ n → 2 ≤ l.length → (∃ x ∈ l, bad x) →
      mergeSortE le l = Except.error () := by
  intro n
  induction n with
  | zero =>
    intro l hlen h2 _
    omega
  | succ n ih =>
    intro l hlen h2 hex
    obtain ⟨x, hx, hbad⟩ := hex
    match l, hx with
    | a :: b :: rest, hx =>
      simp only [List.length_cons] at hlen h2
      have hsplit := List.take_append_drop ((a :: b :: rest).length / 2) (a :: b :: rest)
      have htl : ((a :: b :: rest).take ((a :: b :: rest).length / 2)).length =
          (rest.length + 1 + 1) / 2 := by
        simp [List.length_take, List.length_cons]
        omega
      have hdl : ((a :: b :: rest).drop ((a :: b :: rest).length / 2)).length =
          (rest.length + 1 + 1) - (rest.length + 1 + 1) / 2 := by
        simp [List.length_drop, List.length_cons]
      have hx12 : x ∈ (a :: b :: rest).take ((a :: b :: rest).length / 2) ∨
          x ∈ (a :: b :: rest).drop ((a :: b :: rest).length / 2) := by
        rw [← List.mem_append, hsplit]
        exact hx
      rw [mergeSortE]
      rcases hx12 with hx1 | hx2
      · by_cases htwo : 2 ≤ ((a :: b :: rest).take ((a :: b :: rest).length / 2)).length
        · have herr := ih _ (by rw [htl]; omega) htwo ⟨x, hx1, hbad⟩
          rw [herr]
          cases mergeSortE le ((a :: b :: rest).drop ((a :: b :: rest).length / 2)) <;> rfl
        · rw [htl] at htwo
          have hone : ((a :: b :: rest).take ((a :: b :: rest).length / 2)).length = 1 := by
            rw [htl]
            omega
          obtain ⟨c, hc⟩ := List.length_eq_one.mp hone
          rw [hc] at hx1
          have hxc : x = c := by simpa using hx1
          subst hxc
          have h1 : mergeSortE le ((a :: b :: rest).take ((a :: b :: rest).length / 2)) =
              Except.ok [x] := by
            rw [hc]
            simp [mergeSortE]
          rw [h1]
          cases hs2 : mergeSortE le ((a :: b :: rest).drop ((a :: b :: rest).length / 2)) with
          | error e => cases e; rfl
          | ok s2 =>
            have hd1 : 1 ≤ ((a :: b :: rest).drop ((a :: b :: rest).length / 2)).length := by
              rw [hdl]
              omega
            have hs2len := mergeSortE_ok_length le (n + 1) _ s2
              (by rw [hdl]; omega) hs2 hd1
            match s2, hs2len with
            | b2 :: s2, _ =>
              simp [mergeE, hbl x b2 hbad]
      · by_cases htwo : 2 ≤ ((a :: b :: rest).drop ((a :: b :: rest).length / 2)).length
        · have herr := ih _ (by rw [hdl]; omega) htwo ⟨x, hx2, hbad⟩
          rw [herr]
          cases mergeSortE le ((a :: b :: rest).take ((a :: b :: rest).length / 2)) <;> rfl
        · rw [hdl] at htwo
          have hone : ((a :: b :: rest).drop ((a :: b :: rest).length / 2)).length = 1 := by
            rw [hdl]
            omega
          obtain ⟨c, hc⟩ := List.length_eq_one.mp hone
          rw [hc] at hx2
          have hxc : x = c := by simpa using hx2
          subst hxc
          have h2d : mergeSortE le ((a :: b :: rest).drop ((a :: b :: rest).length / 2)) =
              Except.ok [x] := by
            rw [hc]
            simp [mergeSortE]
          rw [h2d]
          cases hs1 : mergeSortE le ((a :: b :: rest).take ((a :: b :: rest).length / 2)) with
          | error e => cases e; rfl
          | ok s1 =>
            have ht1 : 1 ≤ ((a :: b :: rest).take ((a :: b :: rest).length / 2)).length := by
              rw [htl]
              omega
            have hs1len := mergeSortE_ok_length le (n + 1) _ s1
              (by rw [htl]; omega) hs1 ht1
            match s1, hs1len with
            | a1 :: s1, _ =>
              simp only [mergeE, hbr a1 x hbad]

/-- Claim C10 (amended): the depth-key comparator succeeds precisely on pairs
whose keys are both non-NaN, and a sort pass completes without panic precisely
when every projected depth is non-NaN or the buffer holds fewer than two
points (with fewer than two points no comparison is evaluated, so a NaN depth
does not abort the pass). -/
theorem C10_nan_panic (key : QPoint → Option ℚ) (reverse : Bool)
    (pts : List QPoint) :
    (∀ a b : QPoint,
        okE (leE key reverse a b) = true ↔ ((key a).isSome ∧ (key b).isSome)) ∧
    (okE (sortPassE reverse key pts) = true ↔
      ((∀ p ∈ pts, (key p).isSome) ∨ pts.length ≤ 1)) := by
  refine ⟨fun a b => leE_ok_iff key reverse a b, ?_, ?_⟩
  · intro hok
    by_contra hcon
    push_neg at hcon
    obtain ⟨⟨x, hx, hxbad⟩, hlen⟩ := hcon
    have hxnone : key x = none := Option.not_isSome_iff_eq_none.mp hxbad
    have herr := mergeSortE_error (leE key reverse) (fun p => key p = none)
      (fun a b ha => leE_error_left key reverse a b ha)
      (fun a b hb => leE_error_right key reverse a b hb)
      pts.length pts le_rfl (by omega) ⟨x, hx, hxnone⟩
    rw [sortPassE, herr] at hok
    simp [okE] at hok
  · intro h
    rcases h with hall | hlen
    · have hle : ∀ a b : QPoint, (key a).isSome → (key b).isSome →
          ∃ o, leE key reverse a b = Except.ok o := by
        intro a b ha hb
        obtain ⟨va, hva⟩ := Option.isSome_iff_exists.mp ha
        obtain ⟨vb, hvb⟩ := Option.isSome_iff_exists.mp hb
        exact ⟨if reverse then decide (va ≤ vb) else decide (vb ≤ va),
          by simp [leE, hva, hvb]⟩
      obtain ⟨out, ho, _⟩ := mergeSortE_ok_all (leE key reverse)
        (fun p => (key p).isSome) hle pts.length pts le_rfl hall
      rw [sortPassE, ho]
      rfl
    · match pts, hlen with
      | [], _ => simp [sortPassE, mergeSortE, okE]
      | [a], _ => simp [sortPassE, mergeSortE, okE]

/-- Claim C10, counterexample to the claim as stated: a buffer holding a
single point whose projected depth is NaN (key `none`) sorts without panic,
although the claim states that a NaN depth makes the comparison panic and
abort the pass. -/
theorem C10_nan_singleton_no_panic :
    sortPassE true (fun _ : QPoint => (none : Option ℚ)) [⟨0, 0, 0⟩] =
      Except.ok [⟨0, 0, 0⟩] ∧
    ((fun _ : QPoint => (none : Option ℚ)) ⟨0, 0, 0⟩).isSome = false := by
  constructor
  · simp [sortPassE, mergeSortE]
  · rfl

noncomputable section

/-- `Vector3::unit_y()`. -/
def unitY : Vec3 := ⟨0, 1, 0⟩

/-- cgmath `InnerSpace::angle`: the unsigned angle between two vectors, in
radians (`acos` of the normalized dot product). -/
def angleBetween (u v : Vec3) : ℝ := Real.arccos (u.dot v / (u.norm * v.norm))

/-- `Deg::from(rad)`. -/
def radToDeg (r : ℝ) : ℝ := r * 180 / Real.pi

/-- `Matrix4::from_axis_angle(axis, angle)` in cgmath's column-major layout. -/
def fromAxisAngle (k : Vec3) (θ : ℝ) : Mat4 ℝ :=
  let s := Real.sin θ
  let c := Real.cos θ
  ⟨⟨(1 - c) * k.x * k.x + c, (1 - c) * k.x * k.y + s * k.z,
      (1 - c) * k.x * k.z - s * k.y, 0⟩,
   ⟨(1 - c) * k.x * k.y - s * k.z, (1 - c) * k.y * k.y + c,
      (1 - c) * k.y * k.z + s * k.x, 0⟩,
   ⟨(1 - c) * k.x * k.z + s * k.y, (1 - c) * k.y * k.z - s * k.x,
      (1 - c) * k.z * k.z + c, 0⟩,
   ⟨0, 0, 0, 1⟩⟩

/-- The 3-vector action of `Matrix4::from_axis_angle` as used in `rotate_up`:
`(from_axis_angle(k, θ) * v.extend(1)).truncate()`. -/
def rotVec (k : Vec3) (θ : ℝ) (v : Vec3) : Vec3 :=
  let r := (fromAxisAngle k θ).mulVec ⟨v.x, v.y, v.z, 1⟩
  ⟨r.x, r.y, r.z⟩

/-- `Matrix4::look_at_rh(eye, center, up)` (column-major). -/
def lookAtRh (eye center up : Vec3) : Mat4 ℝ :=
  let f := (center - eye).normalize
  let s := (f.cross up).normalize
  let u := s.cross f
  ⟨⟨s.x, u.x, -f.x, 0⟩,
   ⟨s.y, u.y, -f.y, 0⟩,
   ⟨s.z, u.z, -f.z, 0⟩,
   ⟨-(eye.dot s), -(eye.dot u), eye.dot f, 1⟩⟩

/-- `cgmath::perspective(fovy, aspect, near, far)`; `cot = cos/sin`. -/
def perspectiveMat (fovy aspect near far : ℝ) : Mat4 ℝ :=
  let f := Real.cos (fovy / 2) / Real.sin (fovy / 2)
  ⟨⟨f / aspect, 0, 0, 0⟩,
   ⟨0, f, 0, 0⟩,
   ⟨0, 0, (far + near) / (near - far), -1⟩,
   ⟨0, 0, (2 * far * near) / (near - far), 0⟩⟩

/-- `camera::Camera`.  `view`/`perspective` are the `Cell<Option<..>>` caches;
`aspect` embeds the aspect-ratio field of the source. -/
structure Camera where
  position : Vec3
  direction : Vec3
  fov : ℝ
  aspect : ℝ
  near : ℝ
  far : ℝ
  view : Option (Mat4 ℝ)
  perspective : Option (Mat4 ℝ)

/-- `Camera::new`: both caches start absent. -/
def Camera.new (position direction : Vec3) (fov aspect near far : ℝ) : Camera :=
  ⟨position, direction, fov, aspect, near, far, none, none⟩

/-- `Camera::right`. -/
def Camera.right (c : Camera) : Vec3 := (c.direction.cross unitY).normalize

/-- Guard of `Camera::rotate_up` (`camera.rs` lines 40-45): `theta` is the
angle between the position vector and world-up, compared in degrees. -/
def rotateGuard (c : Camera) (angle : ℝ) : Prop :=
  (radToDeg (angleBetween c.position unitY) + radToDeg angle < 5 ∧ angle < 0) ∨
  (radToDeg (angleBetween c.position unitY) + radToDeg angle > 175 ∧ angle > 0)

instance rotateGuardDec (c : Camera) (angle : ℝ) : Decidable (rotateGuard c angle) := by
  unfold rotateGuard
  infer_instance

/-- `Camera::rotate_up` (`camera.rs` lines 38-57); `angle` in radians.  In the
guard case the camera is returned unchanged (early `return`); otherwise the
position orbits about `right()` at constant distance from the origin, the
direction is recomputed and both caches are invalidated. -/
def Camera.rotate_up (c : Camera) (angle : ℝ) : Camera :=
  if rotateGuard c angle then c
  else
    let distance := c.position.norm
    let position := distance • rotVec c.right angle c.position.normalize
    { c with position := position, direction := -(position.normalize),
             view := none, perspective := none }

/-- `Camera::zoom` (`camera.rs` lines 67-70). -/
def Camera.zoom (c : Camera) (amount : ℝ) : Camera :=
  { c with position := c.position + amount • c.direction.normalize,
           view := none, perspective := none }

/-- `Camera::set_aspect` (`camera.rs` lines 72-75). -/
def Camera.set_aspect (c : Camera) (a : ℝ) : Camera :=
  { c with aspect := a, view := none, perspective := none }

/-- The view matrix determined by the current parameters (the cache-miss
branch of `Camera::view`). -/
def viewOf (c : Camera) : Mat4 ℝ :=
  lookAtRh c.position (c.position + c.direction) unitY

/-- The projection matrix determined by the current parameters. -/
def perspOf (c : Camera) : Mat4 ℝ := perspectiveMat c.fov c.aspect c.near c.far

/-- `Camera::view` (`camera.rs` lines 82-96): the returned matrix and the
camera state after the `Cell` update. -/
def Camera.viewFn (c : Camera) : Mat4 ℝ × Camera :=
  match c.view with
  | some m => (m, c)
  | none => (viewOf c, { c with view := some (viewOf c) })

/-- `Camera::perspective` (`camera.rs` lines 98-107). -/
def Camera.perspectiveFn (c : Camera) : Mat4 ℝ × Camera :=
  match c.perspective with
  | some m => (m, c)
  | none => (perspOf c, { c with perspective := some (perspOf c) })

/-- The camera operations the program performs. -/
inductive CamOp where
  | zoomOp (amount : ℝ)
  | rotateOp (angle : ℝ)
  | aspectOp (a : ℝ)
  | viewOp
  | perspOp

/-- Apply one operation, keeping the state left behind by the `Cell` caches. -/
def applyOp (c : Camera) : CamOp → Camera
  | .zoomOp r => c.zoom r
  | .rotateOp r => c.rotate_up r
  | .aspectOp r => c.set_aspect r
  | .viewOp => (c.viewFn).2
  | .perspOp => (c.perspectiveFn).2

def applyOps (c : Camera) (ops : List CamOp) : Camera := ops.foldl applyOp c

/-- Correct no-staleness invariant: every present cache matches the current
parameters. -/
def cachesConsistent (c : Camera) : Prop :=
  (∀ m, c.view = some m → m = viewOf c) ∧
  (∀ m, c.perspective = some m → m = perspOf c)

/-- The claim's literal invariant: the cached matrices are either both absent
or both (present and) consistent with the current parameters. -/
def bothAbsentOrBothConsistent (c : Camera) : Prop :=
  (c.view = none ∧ c.perspective = none) ∨
  (c.view = some (viewOf c) ∧ c.perspective = some (perspOf c))

end

theorem viewOf_set_view (c : Camera) (m : Option (Mat4 ℝ)) :
    viewOf { c with view := m } = viewOf c := rfl

theorem perspOf_set_view (c : Camera) (m : Option (Mat4 ℝ)) :
    perspOf { c with view := m } = perspOf c := rfl

theorem viewOf_set_persp (c : Camera) (m : Option (Mat4 ℝ)) :
    viewOf { c with perspective := m } = viewOf c := rfl

theorem perspOf_set_persp (c : Camera) (m : Option (Mat4 ℝ)) :
    perspOf { c with perspective := m } = perspOf c := rfl

theorem cachesConsistent_applyOp (c : Camera) (hc : cachesConsistent c) (op : CamOp) :
    cachesConsistent (applyOp c op) := by
  cases op with
  | zoomOp r =>
    constructor <;> intro m hm <;> simp [applyOp, Camera.zoom] at hm
  | aspectOp r =>
    constructor <;> intro m hm <;> simp [applyOp, Camera.set_aspect] at hm
  | rotateOp r =>
    by_cases h : rotateGuard c r
    · simpa [applyOp, Camera.rotate_up, h] using hc
    · constructor <;> intro m hm <;> simp [applyOp, Camera.rotate_up, h] at hm
  | viewOp =>
    cases hv : c.view with
    | some m0 =>
      simpa [applyOp, Camera.viewFn, hv] using hc
    | none =>
      have happ : applyOp c CamOp.viewOp = { c with view := some (viewOf c) } := by
        simp [applyOp, Camera.viewFn, hv]
      rw [happ]
      constructor <;> intro m hm
      · simp at hm
        rw [viewOf_set_view, ← hm]
      · simp at hm
        rw [perspOf_set_view]
        exact hc.2 m hm
  | perspOp =>
    cases hv : c.perspective with
    | some m0 =>
      simpa [applyOp, Camera.perspectiveFn, hv] using hc
    | none =>
      have happ : applyOp c CamOp.perspOp =
          { c with perspective := some (perspOf c) } := by
        simp [applyOp, Camera.perspectiveFn, hv]
      rw [happ]
      constructor <;> intro m hm
      · simp at hm
        rw [viewOf_set_persp]
        exact hc.1 m hm
      · simp at hm
        rw [perspOf_set_persp, ← hm]

theorem cachesConsistent_applyOps (c : Camera) (hc : cachesConsistent c)
    (ops : List CamOp) : cachesConsistent (applyOps c ops) := by
  induction ops generalizing c with
  | nil => exact hc
  | cons op ops ih => exact ih _ (cachesConsistent_applyOp c hc op)

theorem viewFn_fst_of_consistent (c : Camera) (hc : cachesConsistent c) :
    (c.viewFn).1 = viewOf c := by
  cases hv : c.view with
  | some m => simp [Camera.viewFn, hv, hc.1 m hv]
  | none => simp [Camera.viewFn, hv]

theorem perspectiveFn_fst_of_consistent (c : Camera) (hc : cachesConsistent c) :
    (c.perspectiveFn).1 = perspOf c := by
  cases hv : c.perspective with
  | some m => simp [Camera.perspectiveFn, hv, hc.2 m hv]
  | none => simp [Camera.perspectiveFn, hv]

theorem viewFn_double_read (c : Camera) :
    (c.viewFn).2.viewFn = ((c.viewFn).1, (c.viewFn).2) := by
  cases hv : c.view <;> simp [Camera.viewFn, hv]

theorem perspectiveFn_double_read (c : Camera) :
    (c.perspectiveFn).2.perspectiveFn = ((c.perspectiveFn).1, (c.perspectiveFn).2) := by
  cases hv : c.perspective <;> simp [Camera.perspectiveFn, hv]

theorem cachesConsistent_zoom (c : Camera) (r : ℝ) : cachesConsistent (c.zoom r) := by
  constructor <;> intro m hm <;> simp [Camera.zoom] at hm

theorem cachesConsistent_set_aspect (c : Camera) (r : ℝ) :
    cachesConsistent (c.set_aspect r) := by
  constructor <;> intro m hm <;> simp [Camera.set_aspect] at hm

theorem cachesConsistent_rotate_up (c : Camera) (hc : cachesConsistent c) (r : ℝ) :
    cachesConsistent (c.rotate_up r) := by
  by_cases h : rotateGuard c r
  · simpa [Camera.rotate_up, h] using hc
  · constructor <;> intro m hm <;> simp [Camera.rotate_up, h] at hm

/-- Claim C6 (amended): for every camera reachable from `Camera::new` by any
sequence of operations, (a) every *present* cache matches the current
parameters; (b) after any mutator the next `view()`/`perspective()` call
returns the matrix computed from the current parameters (`zoom` and
`set_aspect` always invalidate both caches; a guard-rejected `rotate_up`
leaves the camera — parameters and caches — unchanged, so the cached values
still match); (c) two consecutive reads with no mutation in between return
the identical matrix and leave the camera state unchanged (cache hit).  The
claim's literal invariant "both absent or both consistent" is refuted by
`C6_literal_invariant_fails`: after a single `view()` call the view cache is
present while the projection cache is still absent. -/
theorem C6_cache_behavior (p d : Vec3) (fov a near far : ℝ) (ops : List CamOp) :
    cachesConsistent (applyOps (Camera.new p d fov a near far) ops) ∧
    (∀ r,
      ((applyOps (Camera.new p d fov a near far) ops).zoom r).viewFn.1 =
        viewOf ((applyOps (Camera.new p d fov a near far) ops).zoom r) ∧
      ((applyOps (Camera.new p d fov a near far) ops).zoom r).perspectiveFn.1 =
        perspOf ((applyOps (Camera.new p d fov a near far) ops).zoom r)) ∧
    (∀ r,
      ((applyOps (Camera.new p d fov a near far) ops).set_aspect r).viewFn.1 =
        viewOf ((applyOps (Camera.new p d fov a near far) ops).set_aspect r) ∧
      ((applyOps (Camera.new p d fov a near far) ops).set_aspect r).perspectiveFn.1 =
        perspOf ((applyOps (Camera.new p d fov a near far) ops).set_aspect r)) ∧
    (∀ r,
      ((applyOps (Camera.new p d fov a near far) ops).rotate_up r).viewFn.1 =
        viewOf ((applyOps (Camera.new p d fov a near far) ops).rotate_up r) ∧
      ((applyOps (Camera.new p d fov a near far) ops).rotate_up r).perspectiveFn.1 =
        perspOf ((applyOps (Camera.new p d fov a near far) ops).rotate_up r)) ∧
    ((applyOps (Camera.new p d fov a near far) ops).viewFn.2.viewFn =
      ((applyOps (Camera.new p d fov a near far) ops).viewFn.1,
       (applyOps (Camera.new p d fov a near far) ops).viewFn.2)) ∧
    ((applyOps (Camera.new p d fov a near far) ops).perspectiveFn.2.perspectiveFn =
      ((applyOps (Camera.new p d fov a near far) ops).perspectiveFn.1,
       (applyOps (Camera.new p d fov a near far) ops).perspectiveFn.2)) := by
  have hnew : cachesConsistent (Camera.new p d fov a near far) := by
    constructor <;> intro m hm <;> simp [Camera.new] at hm
  have hc := cachesConsistent_applyOps _ hnew ops
  refine ⟨hc, ?_, ?_, ?_, viewFn_double_read _, perspectiveFn_double_read _⟩
  · intro r
    exact ⟨viewFn_fst_of_consistent _ (cachesConsistent_zoom _ r),
      perspectiveFn_fst_of_consistent _ (cachesConsistent_zoom _ r)⟩
  · intro r
    exact ⟨viewFn_fst_of_consistent _ (cachesConsistent_set_aspect _ r),
      perspectiveFn_fst_of_consistent _ (cachesConsistent_set_aspect _ r)⟩
  · intro r
    exact ⟨viewFn_fst_of_consistent _ (cachesConsistent_rotate_up _ hc r),
      perspectiveFn_fst_of_consistent _ (cachesConsistent_rotate_up _ hc r)⟩

/-- Claim C6, counterexample to the literal invariant: after one `view()`
call on a fresh camera the view cache is present but the projection cache is
absent — the caches are neither both absent nor both present-and-consistent. -/
theorem C6_literal_invariant_fails :
    ¬ bothAbsentOrBothConsistent
        ((Camera.new ⟨0, 0, 2⟩ ⟨0, 0, -1⟩ 1 1 (1 / 10) 10).viewFn.2) := by
  intro h
  rcases h with ⟨h1, _⟩ | ⟨_, h2⟩
  · simp [Camera.viewFn, Camera.new] at h1
  · simp [Camera.viewFn, Camera.new] at h2

theorem Vec3.normSq_nonneg (v : Vec3) : 0 ≤ v.normSq := by
  unfold Vec3.normSq
  positivity

theorem Vec3.norm_nonneg' (v : Vec3) : 0 ≤ v.norm := Real.sqrt_nonneg _

theorem Vec3.normSq_eq_norm_sq (v : Vec3) : v.normSq = v.norm ^ 2 := by
  unfold Vec3.norm
  rw [Real.sq_sqrt (Vec3.normSq_nonneg v)]

theorem Vec3.normSq_eq_zero_iff (v : Vec3) : v.normSq = 0 ↔ v = ⟨0, 0, 0⟩ := by
  constructor
  · intro h
    unfold Vec3.normSq at h
    have hx : v.x = 0 := by nlinarith [sq_nonneg v.x, sq_nonneg v.y, sq_nonneg v.z]
    have hy : v.y = 0 := by nlinarith [sq_nonneg v.x, sq_nonneg v.y, sq_nonneg v.z]
    have hz : v.z = 0 := by nlinarith [sq_nonneg v.x, sq_nonneg v.y, sq_nonneg v.z]
    ext <;> simp [hx, hy, hz]
  · intro h
    rw [h]
    simp [Vec3.normSq]

theorem Vec3.norm_eq_zero_iff (v : Vec3) : v.norm = 0 ↔ v = ⟨0, 0, 0⟩ := by
  unfold Vec3.norm
  rw [Real.sqrt_eq_zero (Vec3.normSq_nonneg v)]
  exact Vec3.normSq_eq_zero_iff v

theorem Vec3.norm_pos (v : Vec3) (hv : v ≠ ⟨0, 0, 0⟩) : 0 < v.norm :=
  lt_of_le_of_ne (Vec3.norm_nonneg' v) fun h =>
    hv ((Vec3.norm_eq_zero_iff v).mp h.symm)

theorem Vec3.norm_smul (r : ℝ) (v : Vec3) : (r • v).norm = |r| * v.norm := by
  have h : (r • v).normSq = r ^ 2 * v.normSq := by
    simp [Vec3.normSq]
    ring
  unfold Vec3.norm
  rw [h, Real.sqrt_mul (sq_nonneg r), Real.sqrt_sq_eq_abs]

theorem Vec3.norm_normalize (v : Vec3) (hv : v ≠ ⟨0, 0, 0⟩) :
    v.normalize.norm = 1 := by
  have hp := Vec3.norm_pos v hv
  unfold Vec3.normalize
  rw [Vec3.norm_smul, abs_of_nonneg (by positivity)]
  field_simp

theorem dot_cross_right (k v : Vec3) : v.dot (k.cross v) = 0 := by
  simp [Vec3.dot, Vec3.cross]
  ring

theorem dot_cross_left (k v : Vec3) : k.dot (k.cross v) = 0 := by
  simp [Vec3.dot, Vec3.cross]
  ring

theorem cross_normSq (k v : Vec3) :
    (k.cross v).normSq = k.normSq * v.normSq - (k.dot v) ^ 2 := by
  simp [Vec3.normSq, Vec3.cross, Vec3.dot]
  ring

theorem normSq_comb (a b g : ℝ) (k v : Vec3) :
    (a • v + b • k + g • (k.cross v)).normSq =
      a ^ 2 * v.normSq + b ^ 2 * k.normSq + g ^ 2 * (k.cross v).normSq +
      2 * a * b * (k.dot v) + 2 * a * g * (v.dot (k.cross v)) +
      2 * b * g * (k.dot (k.cross v)) := by
  simp [Vec3.normSq, Vec3.cross, Vec3.dot]
  ring

/-- The matrix of `from_axis_angle` acts by the Rodrigues rotation formula. -/
theorem rotVec_rodrigues (k : Vec3) (θ : ℝ) (v : Vec3) :
    rotVec k θ v = Real.cos θ • v + ((1 - Real.cos θ) * (k.dot v)) • k +
      Real.sin θ • (k.cross v) := by
  ext <;> simp [rotVec, fromAxisAngle, Mat4.mulVec, Vec3.cross, Vec3.dot] <;> ring

/-- Rotation about a unit axis preserves the squared length. -/
theorem normSq_rotVec (k : Vec3) (hk : k.normSq = 1) (θ : ℝ) (v : Vec3) :
    (rotVec k θ v).normSq = v.normSq := by
  rw [rotVec_rodrigues, normSq_comb, cross_normSq, dot_cross_right,
    dot_cross_left, hk]
  have hsc := Real.sin_sq_add_cos_sq θ
  linear_combination (v.normSq - (k.dot v) ^ 2) * hsc

theorem norm_rotVec (k : Vec3) (hk : k.normSq = 1) (θ : ℝ) (v : Vec3) :
    (rotVec k θ v).norm = v.norm := by
  unfold Vec3.norm
  rw [normSq_rotVec k hk]

/-- Claim C7: `rotate_up` is a no-op — the whole camera state, caches
included, is unchanged — exactly in the guard case (the resulting angle to
world-up, in degrees, would pass below `5` while rotating down or above `175`
while rotating up); otherwise it moves the position at an unchanged distance
from the origin, recomputes the direction as the normalized negated position,
and invalidates both caches.  Requires a nonzero position (otherwise the
normalization is degenerate) and a well-defined right axis. -/
theorem C7_orbit_guard (c : Camera) (angle : ℝ)
    (hp : c.position ≠ ⟨0, 0, 0⟩)
    (hax : c.direction.cross unitY ≠ ⟨0, 0, 0⟩) :
    (rotateGuard c angle → c.rotate_up angle = c) ∧
    (¬ rotateGuard c angle →
      (c.rotate_up angle).position.norm = c.position.norm ∧
      (c.rotate_up angle).direction = -((c.rotate_up angle).position.normalize) ∧
      (c.rotate_up angle).view = none ∧
      (c.rotate_up angle).perspective = none) := by
  constructor
  · intro h
    unfold Camera.rotate_up
    rw [if_pos h]
  · intro h
    have hk : (Camera.right c).normSq = 1 := by
      unfold Camera.right
      rw [Vec3.normSq_eq_norm_sq, Vec3.norm_normalize _ hax]
      norm_num
    have hn1 : c.position.normalize.norm = 1 := Vec3.norm_normalize _ hp
    unfold Camera.rotate_up
    rw [if_neg h]
    refine ⟨?_, rfl, rfl, rfl⟩
    simp only [Vec3.norm_smul, norm_rotVec _ hk, hn1, mul_one]
    exact abs_of_nonneg (Vec3.norm_nonneg' _)

noncomputable section

/-- `Rad::from(Deg(d))`. -/
def degToRad (d : ℝ) : ℝ := d * Real.pi / 180

/-- `Matrix4::from_angle_y(θ)` (column-major). -/
def fromAngleY (θ : ℝ) : Mat4 ℝ :=
  ⟨⟨Real.cos θ, 0, -(Real.sin θ), 0⟩,
   ⟨0, 1, 0, 0⟩,
   ⟨Real.sin θ, 0, Real.cos θ, 0⟩,
   ⟨0, 0, 0, 1⟩⟩

/-- The tuple published into the single-slot cell (`main.rs` lines 529-531
and 634): `(model, view, perspective, reverse_sort)`. -/
structure Snapshot where
  model : Mat4 ℝ
  view : Mat4 ℝ
  perspective : Mat4 ℝ
  reverse_sort : Bool

/-- The input observed by one simulation tick (`main.rs` lines 607-626): the
wheel delta, the `Up`/`Down`/`R` key states, and whether the single-slot cell
is locked by the sort loop so that `try_lock` fails. -/
structure SimInput where
  wheel : Option (ℝ × ℝ)
  upKey : Bool
  downKey : Bool
  rKey : Bool
  cellLocked : Bool

/-- The state carried across ticks by the simulation loop (`main.rs` lines
601-603 and the shared `state`): camera, model matrix, and the loop-local
`reverse_sort` and `changed` flags.  At thread start both flags are `true`. -/
structure SimState where
  camera : Camera
  model : Mat4 ℝ
  reverse_sort : Bool
  changed : Bool

/-- One tick of the simulation loop (`main.rs` lines 604-645): wheel input
rotates the model about Y and orbits the camera and sets `changed`; `Up` and
`Down` zoom the camera *without* touching `changed`; `R` toggles
`reverse_sort` and sets `changed`.  If `changed` is set it is cleared, the
snapshot is built from the current camera, and a non-blocking `try_lock`
publish is attempted — skipped (output `none`) when the cell is locked.
The returned camera carries the `Cell` cache updates made by
`camera.view()` / `camera.perspective()`. -/
def simTick (s : SimState) (inp : SimInput) : SimState × Option Snapshot :=
  let st1 :=
    match inp.wheel with
    | some wd =>
      { s with model := (fromAngleY (degToRad ((3 / 10) * wd.1))).mul s.model,
               camera := s.camera.rotate_up (degToRad (-(3 / 10) * wd.2)),
               changed := true }
    | none => s
  let st2 := if inp.upKey then { st1 with camera := st1.camera.zoom (1 / 100) } else st1
  let st3 :=
    if inp.downKey then { st2 with camera := st2.camera.zoom (-(1 / 100)) } else st2
  let st4 :=
    if inp.rKey then { st3 with reverse_sort := !st3.reverse_sort, changed := true }
    else st3
  if st4.changed then
    let v := st4.camera.viewFn
    let pm := v.2.perspectiveFn
    ({ st4 with camera := pm.2, changed := false },
     if inp.cellLocked then none
     else some ⟨st4.model, v.1, pm.1, st4.reverse_sort⟩)
  else (st4, none)

/-- A camera used for the concrete scenarios below. -/
def cam0 : Camera := Camera.new ⟨0, 0, 2⟩ ⟨0, 0, -1⟩ 1 1 (1 / 10) 10

/-- The identity model matrix. -/
def idM4 : Mat4 ℝ :=
  ⟨⟨1, 0, 0, 0⟩, ⟨0, 1, 0, 0⟩, ⟨0, 0, 1, 0⟩, ⟨0, 0, 0, 1⟩⟩

/-- A simulation state with no pending change. -/
def stC3 : SimState := ⟨cam0, idM4, true, false⟩

/-- A tick that only holds the `Up` (zoom) key. -/
def inpZoomC3 : SimInput := ⟨none, true, false, false, false⟩

/-- A tick that presses `R` (a sort-direction mutation) while the cell is
locked. -/
def inpToggleLockedC3 : SimInput := ⟨none, false, false, true, true⟩

/-- A tick with no input and the cell free. -/
def inpIdleC3 : SimInput := ⟨none, false, false, false, false⟩

end

/-- Claim C3 (amended): after every tick the `changed` flag is false — the
code clears it *before* the `try_lock`, so a publish skipped because the cell
was locked still loses the pending mutation; and a snapshot is published in a
tick exactly when the flag was set at the check (carried in from the previous
tick, set by a wheel orbit, or set by the `R` sort-direction toggle — zooming
via the held `Up`/`Down` keys never sets it) and the cell is not locked. -/
theorem C3_changed_flag (s : SimState) (inp : SimInput) :
    ((simTick s inp).1.changed = false) ∧
    ((simTick s inp).2.isSome ↔
      ((s.changed ∨ inp.wheel.isSome ∨ inp.rKey) ∧ ¬ inp.cellLocked)) := by
  obtain ⟨w, u, dn, r, lk⟩ := inp
  cases hc : s.changed <;> cases w <;> cases u <;> cases dn <;> cases r <;> cases lk <;>
    simp [simTick, hc]

theorem simTick_idle_no_publish (s : SimState) (h : s.changed = false) :
    (simTick s inpIdleC3).2 = none := by
  simp [simTick, inpIdleC3, h]

/-- Claim C3, counterexample to the claim as stated: (a) a tick that only
zooms (held `Up` key) mutates the camera but leaves `changed` unset and
publishes nothing, although the claim says the flag is set whenever a zoom
mutation occurred; (b) a tick whose `R` toggle finds the cell locked skips
the publish *and* clears the flag, and the following idle tick with a free
cell still publishes nothing — the skipped mutation is not "still pending
for a later tick". -/
theorem C3_mutation_lost :
    ((simTick stC3 inpZoomC3).1.changed = false) ∧
    ((simTick stC3 inpZoomC3).2 = none) ∧
    ((simTick stC3 inpZoomC3).1.camera.position.z ≠ stC3.camera.position.z) ∧
    ((simTick stC3 inpToggleLockedC3).2 = none) ∧
    ((simTick stC3 inpToggleLockedC3).1.changed = false) ∧
    ((simTick (simTick stC3 inpToggleLockedC3).1 inpIdleC3).2 = none) := by
  refine ⟨?_, ?_, ?_, ?_, ?_, ?_⟩
  · simp [simTick, stC3, inpZoomC3]
  · simp [simTick, stC3, inpZoomC3]
  · have hz : (simTick stC3 inpZoomC3).1.camera.position.z = 199 / 100 := by
      simp [simTick, stC3, inpZoomC3, cam0, Camera.new, Camera.zoom,
        Vec3.normalize, Vec3.norm, Vec3.normSq]
      norm_num
    rw [hz]
    have hz0 : stC3.camera.position.z = 2 := rfl
    rw [hz0]
    norm_num
  · simp [simTick, stC3, inpToggleLockedC3]
  · simp [simTick, stC3, inpToggleLockedC3]
  · have hch : (simTick stC3 inpToggleLockedC3).1.changed = false := by
      simp [simTick, stC3, inpToggleLockedC3]
    exact simTick_idle_no_publish _ hch

noncomputable section

/-- A one-triangle mesh in flat-array form. -/
def meshW : MeshData :=
  ⟨[0, 1, 2],
   [0, 0, 0, 1, 0, 0, 0, 1, 0],
   [1, 0, 0, 0, 1, 0, 0, 0, 1],
   [0, 0, 1, 0, 0, 1]⟩

end

/-- Witness for C4 at a concrete triangle and all-zero draws. -/
theorem C4_point_containment_witness :
    (∀ i : ℕ, 0 ≤ (fun _ : ℕ => (0 : ℝ)) i ∧ (fun _ : ℕ => (0 : ℝ)) i < 1) ∧
    ((∀ i j, (foldUnitSquare ((fun _ : ℕ => (0 : ℝ)) i) ((fun _ : ℕ => (0 : ℝ)) j)).1 +
        (foldUnitSquare ((fun _ : ℕ => (0 : ℝ)) i) ((fun _ : ℕ => (0 : ℝ)) j)).2 ≤ 1) ∧
      ∀ pt ∈ genTriangle triC1 2 1 (fun _ => 0) (fun _ => 0),
        ∃ wa wb wc : ℝ,
          0 ≤ wa ∧ wa ≤ 1 ∧ 0 ≤ wb ∧ wb ≤ 1 ∧ 0 ≤ wc ∧ wc ≤ 1 ∧
          wa + wb + wc = 1 ∧
          pt.position = wa • triC1.a + wb • triC1.b + wc • triC1.c) := by
  have hr : ∀ i : ℕ, 0 ≤ (fun _ : ℕ => (0 : ℝ)) i ∧ (fun _ : ℕ => (0 : ℝ)) i < 1 :=
    fun _ => ⟨le_refl 0, by norm_num⟩
  exact ⟨hr, C4_point_containment triC1 2 1 (fun _ => 0) (fun _ => 0) hr⟩

/-- Witness for C5 at a concrete triangle and density. -/
theorem C5_stochastic_rounding_witness :
    (0 : ℝ) ≤ 2 ∧
    (genTriangle triC1 2 1 (fun _ => 0) (fun _ => 0)).length =
      (if (fun _ : ℕ => (0 : ℝ)) 0 < Int.fract (triArea triC1 * 2) then
        (⌊triArea triC1 * 2⌋).toNat + 1
      else (⌊triArea triC1 * 2⌋).toNat) :=
  ⟨by norm_num, C5_stochastic_rounding triC1 2 1 (fun _ => 0) (fun _ => 0) (by norm_num)⟩

/-- Witness for C8 at a concrete one-triangle mesh and all-zero draws. -/
theorem C8_zero_density_witness :
    (∀ t : ℕ, 0 ≤ (fun _ _ : ℕ => (0 : ℝ)) t 0) ∧
    gen_point_list meshW 0 3 (fun _ _ => 0) (fun _ _ => 0) = [] := by
  have h : ∀ t : ℕ, 0 ≤ (fun _ _ : ℕ => (0 : ℝ)) t 0 := fun _ => le_refl 0
  exact ⟨h, C8_zero_density meshW 3 (fun _ _ => 0) (fun _ _ => 0) h⟩

/-- Witness for C7 at a concrete camera and angle. -/
theorem C7_orbit_guard_witness :
    (cam0.position ≠ ⟨0, 0, 0⟩) ∧ (cam0.direction.cross unitY ≠ ⟨0, 0, 0⟩) ∧
    ((rotateGuard cam0 (1 / 10) → cam0.rotate_up (1 / 10) = cam0) ∧
     (¬ rotateGuard cam0 (1 / 10) →
       (cam0.rotate_up (1 / 10)).position.norm = cam0.position.norm ∧
       (cam0.rotate_up (1 / 10)).direction =
         -((cam0.rotate_up (1 / 10)).position.normalize) ∧
       (cam0.rotate_up (1 / 10)).view = none ∧
       (cam0.rotate_up (1 / 10)).perspective = none)) := by
  have h1 : cam0.position ≠ (⟨0, 0, 0⟩ : Vec3) := by
    intro h
    have hz := congrArg Vec3.z h
    norm_num [cam0, Camera.new] at hz
  have h2 : cam0.direction.cross unitY ≠ (⟨0, 0, 0⟩ : Vec3) := by
    intro h
    have hx := congrArg Vec3.x h
    norm_num [cam0, Camera.new, Vec3.cross, unitY] at hx
  exact ⟨h1, h2, C7_orbit_guard cam0 (1 / 10) h1 h2⟩
